import Mathlib

-- Verification of the rr ("random_run") argument-batching engine (rr.C).
-- The C++ source is shallowly embedded below.  Conventions:
--   * C strings are modelled as Lean String; strlen is the character count
--     (arguments are byte strings, one char per byte).
--   * size_t arithmetic is modelled on Nat: argument-vector sizes are bounded
--     far below 2^64 in any real process image, so overflow is unreachable.
--   * std::regex values are modelled as abstract whole-string matchers
--     (String -> Bool); regex compilation is an external collaborator.
--   * The recursive_directory_iterator stream is modelled as the list of
--     (path, isDirectory) entries it yields, paths as component lists,
--     in an order where a directory entry precedes its children (the
--     iterator always yields a directory before descending into it).
--   * fork/waitpid outcomes are an external oracle (Nat -> WaitStatus),
--     consumed one entry per fork, indexed by the number of forks so far.

namespace RR

/-- A compiled regex, abstracted to a whole-string matcher (regex_match). -/
def Regex := String → Bool

/-- strlen of a C string. -/
def strlen (s : String) : Nat := s.length

/-- Serialized size of an argument vector: sum over arguments of strlen+1,
mirroring the `initial += strlen(x)+1` and `current += strlen(s)+1`
accounting in run_commands (rr.C:354-377). -/
def argvBytes (l : List String) : Nat := (l.map (fun s => strlen s + 1)).sum

/-- numeric_limits<size_t>::max(), rr.C:95. -/
def MAXSIZE : Nat := 2 ^ 64 - 1

/-- The options structure, rr.C:99-117.  `maxsize` is left 0 by default and is
set by get_options (in the source it is uninitialized until then).
The `-l` file list is kept, though file reading itself is external. -/
structure options where
  justone : Bool := false
  verbose : Bool := false
  recursive : Bool := false
  recursedirs : Bool := false
  randomize : Bool := true
  once : Bool := false
  exitonerror : Bool := false
  nocase : Bool := false
  eregex : Bool := false
  printonly : Bool := false
  rotate : Bool := false
  dashdash : Bool := true
  maxargs : Nat := MAXSIZE
  margin : Nat := 0
  maxsize : Nat := 0
  start : List Regex := []
  exclude : List Regex := []
  only : List Regex := []
  list : List String := []

/-- any_match, rr.C:281-288: does s match some regex of the list. -/
def any_match (s : String) (x : List Regex) : Bool := x.any (fun r => r s)

/-- keep, rr.C:332-340: exclude always wins; only kicks in when nonempty. -/
def keep (s : String) (o : options) : Bool :=
  if any_match s o.exclude then false
  else o.only.isEmpty || any_match s o.only

/-- A parsed command-line flag, one per getopt case (rr.C:175-235).
Regex-typed payloads carry the compiled matcher (add_regex is external
regex compilation; its basic/extended/icase flags only affect matching,
which is abstract here). -/
inductive Flag where
  | d | D | v | p | N | r | R | one | i | e | E | O
  | n (val : Nat)
  | m (val : Nat)
  | o (re : Regex)
  | x (re : Regex)
  | s (re : Regex)
  | l (file : String)

/-- One iteration of the getopt switch, rr.C:176-235. -/
def apply_flag (opt : options) : Flag → options
  | .d => { opt with dashdash := false }
  | .D => { opt with recursedirs := true, recursive := true }
  | .v => { opt with verbose := true }
  | .p => { opt with printonly := true, verbose := true }
  | .n v => { opt with maxargs := v }
  | .m v => { opt with margin := v }
  | .N => { opt with randomize := false }
  | .r => { opt with recursive := true }
  | .R => { opt with rotate := true }
  | .one => { opt with justone := true }
  | .i => { opt with nocase := true }
  | .e => { opt with exitonerror := true }
  | .E => { opt with eregex := true }
  | .o re => { opt with only := opt.only ++ [re] }
  | .O => { opt with once := true }
  | .l f => { opt with list := opt.list ++ [f] }
  | .x re => { opt with exclude := opt.exclude ++ [re] }
  | .s re => { opt with start := opt.start ++ [re] }

/-- get_options, rr.C:170-242.  `envBudget` is the externally computed
compute_maxsize(envp, margin) value (an OS/environment probe, rr.C:157-168);
in printonly mode it is not consulted and maxsize is unbounded. -/
def get_options (flags : List Flag) (envBudget : Nat) : options :=
  let o := flags.foldl apply_flag {}
  if o.printonly then { o with maxsize := MAXSIZE } else { o with maxsize := envBudget }

/-- The cmd/params split of main, rr.C:450-480.  Returns none when a command
is required but absent (main errors and shows usage).  In printonly mode the
prefix is empty and every token is a parameter.  Otherwise the first token is
the command; tokens up to a "--" extend the fixed prefix ("--" itself kept
when dashdash), and the remainder are the variable parameters. -/
def split_args (o : options) (v : List String) : Option (List String × List String) :=
  if o.printonly then some ([], v)
  else
    match v with
    | [] => none
    | c :: rest =>
      match rest.dropWhile (fun s => s ≠ "--") with
      | [] => some ([c], rest)
      | _ :: after =>
        some (c :: rest.takeWhile (fun s => s ≠ "--")
               ++ (if o.dashdash then ["--"] else []), after)

/-- The start-marker scan of main, rr.C:499-502: the scan pointer walks the
pool and `args` is moved to every element matching a start regex, so the last
match wins; `idx` is the scan position and `acc` the current offset of args. -/
def scan_go (ps : List Regex) : List String → Nat → Nat → Nat
  | [], _, acc => acc
  | s :: r, idx, acc => scan_go ps r (idx + 1) (if any_match s ps then idx else acc)

/-- Offset the variable pool is advanced by when start regexes are scanned. -/
def scan_start (ps : List Regex) (pool : List String) : Nat := scan_go ps pool 0 0

/-- Effect of rr.C:499-502 on the variable pool: when start regexes exist,
drop everything before the last matching element (or nothing if no match). -/
def apply_start (o : options) (pool : List String) : List String :=
  if o.start.isEmpty then pool else pool.drop (scan_start o.start pool)

/-- The -1 empty-pool guard of main, rr.C:506-509:
`if (o.justone && end_args == args)` report and abort via usage.
`nargs` is the size of the variable pool at that point.  Returns true when
the run aborts with the configuration error. -/
def justone_empty_check (o : options) (nargs : Nat) : Bool :=
  o.justone && nargs == 0

/-- Outcome of waitpid for one child, rr.C:314-329. -/
inductive WaitStatus where
  | exited (code : Nat)
  | signaled (sig : Nat)
deriving DecidableEq

/-- What the supervisor does after inspecting one child. -/
inductive ChildAction where
  | proceed
  | exitWith (code : Nat)
  | raiseSignal (sig : Nat)
deriving DecidableEq

/-- deal_with_child, rr.C:301-330, given the wait status (the waitpid
bookkeeping errors are fatal resource errors, outside this model).
Returns (whether a failure was reported on stderr, the resulting action).
raiseSignal models kill(getpid(), s) with the exit(1) fallback. -/
def deal_with_child : WaitStatus → Bool → Bool × ChildAction
  | .exited s, e =>
    if s ≠ 0 then (true, if e then .exitWith s else .proceed) else (false, .proceed)
  | .signaled s, e => (true, if e then .raiseSignal s else .proceed)

/-- The inner for loop of run_commands, rr.C:371-379: starting from `cnt`
arguments and `cur` bytes already in the vector, consume elements of the
remaining pool, skipping those the filter drops, adding those that fit,
until the count ceiling is hit, an element would reach the byte ceiling,
or the pool is exhausted.  Returns (the slice added, the unconsumed rest). -/
def fill_batch (o : options) : Nat → Nat → List String → List String × List String
  | _, _, [] => ([], [])
  | cnt, cur, s :: rest =>
    if cnt = o.maxargs then ([], s :: rest)
    else if keep s o then
      if o.maxsize ≤ cur + strlen s + 1 then ([], s :: rest)
      else
        let p := fill_batch o (cnt + 1) (cur + strlen s + 1) rest
        (s :: p.1, p.2)
    else fill_batch o cnt cur rest

/-- How a run of the batching loop ends. -/
inductive FinalAction where
  | exitZero
  | execFinal (slice : List String)
  | abortExit (code : Nat)
  | abortSignal (sig : Nat)
  | spin
  | outOfFuel
deriving DecidableEq

/-- The observable trace of run_commands: the variable slice of every batch
composed (and echoed when verbose), in order; the slices of the batches
handed to fork+exec; and how the loop ended.  exitZero is the printonly
break followed by exit(0) (rr.C:400-406); execFinal is the final in-place
exec (rr.C:403); abortExit/abortSignal are deal_with_child terminating the
run under -e; spin marks the infinite loop reached when an iteration
consumes nothing from the pool (a kept element that can never fit);
outOfFuel is a model artifact, unreachable from run_commands. -/
structure RunTrace where
  batches : List (List String)
  forks : List (List String)
  final : FinalAction
deriving DecidableEq

/-- The for(;;) loop of run_commands, rr.C:368-405.  `initial` and `reset`
are the byte size and length of the fixed prefix; `outs` is the oracle of
child outcomes, indexed by `k`, the number of forks so far.  The fuel is
always one more than the pool length at the call site, and strictly exceeds
the remaining pool throughout, so the outOfFuel branch is never taken:
recursion happens only when the iteration consumed pool elements, exactly
when the C++ loop makes progress; a progress-free iteration loops forever
in the source and is recorded as spin. -/
def run_loop (o : options) (initial reset : Nat) (outs : Nat → WaitStatus) :
    Nat → List String → Nat → RunTrace
  | 0, _, _ => ⟨[], [], .outOfFuel⟩
  | fuel + 1, rest, k =>
    let p := fill_batch o reset initial rest
    if p.2 ≠ [] ∧ o.once = false then
      if o.printonly then
        if p.2.length < rest.length then
          let t := run_loop o initial reset outs fuel p.2 k
          ⟨p.1 :: t.batches, t.forks, t.final⟩
        else ⟨[p.1], [], .spin⟩
      else
        match (deal_with_child (outs k) o.exitonerror).2 with
        | .proceed =>
          if p.2.length < rest.length then
            let t := run_loop o initial reset outs fuel p.2 (k + 1)
            ⟨p.1 :: t.batches, p.1 :: t.forks, t.final⟩
          else ⟨[p.1], [p.1], .spin⟩
        | .exitWith c => ⟨[p.1], [p.1], .abortExit c⟩
        | .raiseSignal sg => ⟨[p.1], [p.1], .abortSignal sg⟩
    else
      if o.printonly then ⟨[p.1], [], .exitZero⟩
      else ⟨[p.1], [], .execFinal p.1⟩

/-- Result of run_commands: either the -n usage error, or a run trace. -/
inductive RunResult where
  | usageError
  | trace (t : RunTrace)
deriving DecidableEq

/-- run_commands, rr.C:343-407: push the fixed command, compute its byte
size, refuse -n values the fixed prefix already fills (rr.C:358-364),
then run the batching loop over the variable pool. -/
def run_commands (fixed pool : List String) (o : options) (outs : Nat → WaitStatus) :
    RunResult :=
  if fixed.length ≥ o.maxargs then .usageError
  else .trace (run_loop o (argvBytes fixed) fixed.length outs (pool.length + 1) pool 0)

/-- A path as yielded by the directory iterator, as its component list. -/
def DirPath := List String

/-- One step of the -D scan of recurse, rr.C:417-423: every directory entry
is added to `seen` and its parent is erased; file entries do nothing.
The std::set is modelled as a duplicate-free list (first-insertion order;
the claims below are stated on membership, which is order-independent). -/
def recurse_step (seen : List (List String)) : List String × Bool → List (List String)
  | (p, true) => ((if p ∈ seen then seen else seen ++ [p]).filter (fun q => q ≠ p.dropLast))
  | (_, false) => seen

/-- recurse, rr.C:410-433, over the entry stream `es` of the recursive
directory iterator (strict descendants of the scanned root, each entry
paired with is_directory).  With recursedirs, fold recurse_step to keep
only directories without subdirectories; otherwise collect the non-directory
entries. -/
def recurse (es : List (List String × Bool)) (recursedirs : Bool) : List (List String) :=
  if recursedirs then es.foldl recurse_step []
  else (es.filter (fun e => !e.2)).map (fun e => e.1)

/-- Well-formedness of a directory-iterator stream: an entry is never
yielded before the directory containing it (recursive_directory_iterator
yields a directory, then descends into it). -/
def parentFirst (es : List (List String × Bool)) : Prop :=
  es.Pairwise (fun a b => ¬(a.2 = true ∧ b.2 = true ∧ a.1.dropLast = b.1))

instance (es : List (List String × Bool)) : Decidable (parentFirst es) := by
  unfold parentFirst; exact List.instDecidablePairwise es

-- Concrete fixtures used to evaluate the model on specific inputs.

/-- A child-outcome oracle where every child exits 0. -/
def allZero : Nat → WaitStatus := fun _ => WaitStatus.exited 0

/-- A matcher standing for a fully anchored literal regex. -/
def matchLit (w : String) : Regex := fun s => s == w

/-- A configuration whose byte ceiling is smaller than the fixed prefix. -/
def oByte : options := { maxargs := 10, maxsize := 3 }

/-- A run-once configuration with room for one variable argument per batch. -/
def oOnce : options := { once := true, maxargs := 2, maxsize := 1000 }

/-- Another run-once configuration. -/
def oOnce9 : options := { once := true, maxargs := 2, maxsize := 500 }

/-- A plain batching configuration. -/
def oW2 : options := { maxargs := 3, maxsize := 100 }

/-- A batching configuration forcing several batches. -/
def oW9 : options := { maxargs := 2, maxsize := 50 }

/-- Rotate mode requested, nothing else. -/
def oRot : options := { rotate := true }

/-- Single-pick mode requested, nothing else. -/
def oJust : options := { justone := true }

/-- Single-pick mode with an exclude pattern that filters everything out. -/
def oJustX : options :=
  { justone := true, exclude := [matchLit "a"], maxargs := 5, maxsize := 100 }

/-- A count ceiling of one argument. -/
def oN1 : options := { maxargs := 1 }

/-- An exclude and an only pattern matching the same candidate. -/
def oPat : options := { exclude := [matchLit "x.pdf"], only := [matchLit "x.pdf"] }

/-- A single start-marker pattern. -/
def oStart : options := { start := [matchLit "m"] }

/-- The directory-iterator stream of the spec scenario tree
root/(a/(1.txt), b/(c/(2.txt))), in depth-first order. -/
def esScenario : List (List String × Bool) :=
  [ (["root", "a"], true), (["root", "a", "1.txt"], false),
    (["root", "b"], true), (["root", "b", "c"], true),
    (["root", "b", "c", "2.txt"], false) ]

-- Helper lemmas about the byte accounting.

theorem argvBytes_nil : argvBytes [] = 0 := rfl

theorem argvBytes_cons (s : String) (l : List String) :
    argvBytes (s :: l) = strlen s + 1 + argvBytes l := by
  simp [argvBytes]

theorem argvBytes_append (a b : List String) :
    argvBytes (a ++ b) = argvBytes a + argvBytes b := by
  simp [argvBytes]

-- Helper lemmas about one batch-filling pass.

theorem fill_batch_mem (o : options) (rest : List String) :
    ∀ (cnt cur : Nat) (x : String), x ∈ (fill_batch o cnt cur rest).2 → x ∈ rest := by
  induction rest with
  | nil => intro cnt cur x hx; simp [fill_batch] at hx
  | cons s r ih =>
    intro cnt cur x hx
    by_cases h1 : cnt = o.maxargs
    · simpa using (by simpa [fill_batch, h1] using hx : x ∈ s :: r)
    · by_cases h2 : keep s o
      · by_cases h3 : o.maxsize ≤ cur + strlen s + 1
        · simpa using (by simpa [fill_batch, h1, h2, h3] using hx : x ∈ s :: r)
        · simp only [fill_batch, if_neg h1, if_pos h2, if_neg h3] at hx
          exact List.mem_cons_of_mem _ (ih _ _ _ hx)
      · simp only [fill_batch, if_neg h1, if_neg h2] at hx
        exact List.mem_cons_of_mem _ (ih _ _ _ hx)

theorem fill_batch_len (o : options) (rest : List String) :
    ∀ (cnt cur : Nat), (fill_batch o cnt cur rest).2.length ≤ rest.length := by
  induction rest with
  | nil => intro cnt cur; simp [fill_batch]
  | cons s r ih =>
    intro cnt cur
    by_cases h1 : cnt = o.maxargs
    · simp [fill_batch, h1]
    · by_cases h2 : keep s o
      · by_cases h3 : o.maxsize ≤ cur + strlen s + 1
        · simp [fill_batch, h1, h2, h3]
        · simp only [fill_batch, if_neg h1, if_pos h2, if_neg h3, List.length_cons]
          exact le_trans (ih _ _) (Nat.le_succ _)
      · simp only [fill_batch, if_neg h1, if_neg h2, List.length_cons]
        exact le_trans (ih _ _) (Nat.le_succ _)

theorem fill_batch_filter (o : options) (rest : List String) :
    ∀ (cnt cur : Nat),
      (fill_batch o cnt cur rest).1
        ++ (fill_batch o cnt cur rest).2.filter (fun t => keep t o)
      = rest.filter (fun t => keep t o) := by
  induction rest with
  | nil => intro cnt cur; simp [fill_batch]
  | cons s r ih =>
    intro cnt cur
    by_cases h1 : cnt = o.maxargs
    · simp [fill_batch, h1]
    · by_cases h2 : keep s o
      · by_cases h3 : o.maxsize ≤ cur + strlen s + 1
        · simp [fill_batch, h1, h2, h3]
        · simp only [fill_batch, if_neg h1, if_pos h2, if_neg h3]
          simp [List.filter_cons, h2, ih]
      · simp only [fill_batch, if_neg h1, if_neg h2]
        simp [List.filter_cons, h2, ih]

theorem fill_batch_count (o : options) (rest : List String) :
    ∀ (cnt cur : Nat), cnt ≤ o.maxargs →
      cnt + (fill_batch o cnt cur rest).1.length ≤ o.maxargs := by
  induction rest with
  | nil => intro cnt cur h; simpa [fill_batch] using h
  | cons s r ih =>
    intro cnt cur h
    by_cases h1 : cnt = o.maxargs
    · simp [fill_batch, h1]
    · by_cases h2 : keep s o
      · by_cases h3 : o.maxsize ≤ cur + strlen s + 1
        · simpa [fill_batch, h1, h2, h3] using h
        · simp only [fill_batch, if_neg h1, if_pos h2, if_neg h3, List.length_cons]
          have := ih (cnt + 1) (cur + strlen s + 1) (by omega)
          omega
      · simp only [fill_batch, if_neg h1, if_neg h2]
        exact ih _ _ h

theorem fill_batch_bytes (o : options) (rest : List String) :
    ∀ (cnt cur : Nat), cur < o.maxsize →
      cur + argvBytes (fill_batch o cnt cur rest).1 < o.maxsize := by
  induction rest with
  | nil => intro cnt cur h; simpa [fill_batch, argvBytes_nil] using h
  | cons s r ih =>
    intro cnt cur h
    by_cases h1 : cnt = o.maxargs
    · simpa [fill_batch, h1, argvBytes_nil] using h
    · by_cases h2 : keep s o
      · by_cases h3 : o.maxsize ≤ cur + strlen s + 1
        · simpa [fill_batch, h1, h2, h3, argvBytes_nil] using h
        · simp only [fill_batch, if_neg h1, if_pos h2, if_neg h3, argvBytes_cons]
          have := ih (cnt + 1) (cur + strlen s + 1) (by omega)
          omega
      · simp only [fill_batch, if_neg h1, if_neg h2]
        exact ih _ _ h

theorem fill_batch_progress (o : options) (rest : List String) :
    ∀ (cnt cur : Nat), cnt < o.maxargs →
      (∀ s ∈ rest, keep s o = true → cur + strlen s + 1 < o.maxsize) →
      rest ≠ [] → (fill_batch o cnt cur rest).2.length < rest.length := by
  induction rest with
  | nil => intro cnt cur _ _ hne; exact absurd rfl hne
  | cons s r ih =>
    intro cnt cur hcnt hfit _
    have h1 : ¬(cnt = o.maxargs) := by omega
    by_cases h2 : keep s o
    · have h3 : ¬(o.maxsize ≤ cur + strlen s + 1) := by
        have := hfit s (List.mem_cons_self s r) h2
        omega
      simp only [fill_batch, if_neg h1, if_pos h2, if_neg h3, List.length_cons]
      exact Nat.lt_succ_of_le (fill_batch_len o r _ _)
    · simp only [fill_batch, if_neg h1, if_neg h2, List.length_cons]
      rcases r with _ | ⟨t, r2⟩
      · simp [fill_batch]
      · exact Nat.lt_succ_of_lt
          (ih cnt cur hcnt (fun u hu hk => hfit u (List.mem_cons_of_mem _ hu) hk)
            (by simp))

theorem fill_batch_slice_ne (o : options) (rest : List String) :
    ∀ (cnt cur : Nat), cnt < o.maxargs →
      (∀ s ∈ rest, keep s o = true → cur + strlen s + 1 < o.maxsize) →
      (fill_batch o cnt cur rest).2 ≠ [] → (fill_batch o cnt cur rest).1 ≠ [] := by
  induction rest with
  | nil => intro cnt cur _ _ hne; simp [fill_batch] at hne
  | cons s r ih =>
    intro cnt cur hcnt hfit hne
    have h1 : ¬(cnt = o.maxargs) := by omega
    by_cases h2 : keep s o
    · have h3 : ¬(o.maxsize ≤ cur + strlen s + 1) := by
        have := hfit s (List.mem_cons_self s r) h2
        omega
      simp [fill_batch, h1, h2, h3]
    · simp only [fill_batch, if_neg h1, if_neg h2] at hne ⊢
      exact ih cnt cur hcnt (fun u hu hk => hfit u (List.mem_cons_of_mem _ hu) hk) hne

theorem deal_with_child_proceed (w : WaitStatus) :
    (deal_with_child w false).2 = .proceed := by
  cases w with
  | exited s =>
    by_cases h : s = 0 <;> simp [deal_with_child, h]
  | signaled s => simp [deal_with_child]

-- Invariants of the batching loop.

theorem run_loop_budget (o : options) (initial reset : Nat) (outs : Nat → WaitStatus) :
    ∀ (fuel : Nat) (rest : List String) (k : Nat) (s : List String),
      s ∈ (run_loop o initial reset outs fuel rest k).batches →
      (reset ≤ o.maxargs → reset + s.length ≤ o.maxargs) ∧
      (initial < o.maxsize → initial + argvBytes s < o.maxsize) := by
  intro fuel
  induction fuel with
  | zero => intro rest k s hs; simp [run_loop] at hs
  | succ f ih =>
    intro rest k s hs
    have hslice : s = (fill_batch o reset initial rest).1 →
        (reset ≤ o.maxargs → reset + s.length ≤ o.maxargs) ∧
        (initial < o.maxsize → initial + argvBytes s < o.maxsize) := by
      intro he
      subst he
      exact ⟨fun h => fill_batch_count o rest reset initial h,
        fun h => fill_batch_bytes o rest reset initial h⟩
    simp only [run_loop] at hs
    split at hs
    · split at hs
      · split at hs
        · simp only [RunTrace.mk.injEq] at hs
          rcases List.mem_cons.1 hs with he | hm
          · exact hslice he
          · exact ih _ _ _ hm
        · rcases List.mem_singleton.1 hs with he
          exact hslice he
      · split at hs
        · split at hs
          · rcases List.mem_cons.1 hs with he | hm
            · exact hslice he
            · exact ih _ _ _ hm
          · rcases List.mem_singleton.1 hs with he
            exact hslice he
        · rcases List.mem_singleton.1 hs with he
          exact hslice he
        · rcases List.mem_singleton.1 hs with he
          exact hslice he
    · split at hs
      · rcases List.mem_singleton.1 hs with he
        exact hslice he
      · rcases List.mem_singleton.1 hs with he
        exact hslice he

theorem run_loop_main (o : options) (initial reset : Nat) (outs : Nat → WaitStatus)
    (hcnt : reset < o.maxargs) (honce : o.once = false)
    (hpe : o.printonly = true ∨ o.exitonerror = false) :
    ∀ (fuel : Nat) (rest : List String) (k : Nat),
      rest.length < fuel →
      (∀ s ∈ rest, keep s o = true → initial + strlen s + 1 < o.maxsize) →
      (run_loop o initial reset outs fuel rest k).batches ≠ [] ∧
      (run_loop o initial reset outs fuel rest k).batches.flatten
        = rest.filter (fun s => keep s o) ∧
      (run_loop o initial reset outs fuel rest k).final ≠ .spin ∧
      (run_loop o initial reset outs fuel rest k).final ≠ .outOfFuel ∧
      (∀ s ∈ (run_loop o initial reset outs fuel rest k).batches.dropLast, s ≠ []) ∧
      (o.printonly = true →
        (run_loop o initial reset outs fuel rest k).forks = [] ∧
        (run_loop o initial reset outs fuel rest k).final = .exitZero) := by
  intro fuel
  induction fuel with
  | zero => intro rest k hlen; omega
  | succ f ih =>
    intro rest k hlen hfit
    have hfil := fill_batch_filter o rest reset initial
    by_cases hr2 : (fill_batch o reset initial rest).2 = []
    · have hcond : ¬((fill_batch o reset initial rest).2 ≠ [] ∧ o.once = false) := by
        simp [hr2]
      by_cases hpo : o.printonly = true
      · simp only [run_loop, if_neg hcond, if_pos hpo]
        refine ⟨by simp, ?_, by simp, by simp, by simp, fun _ => by simp⟩
        simp only [List.flatten_cons, List.flatten_nil, List.append_nil]
        rw [← hfil, hr2]
        simp
      · simp only [run_loop, if_neg hcond, if_neg hpo]
        refine ⟨by simp, ?_, by simp, by simp, by simp, fun h => absurd h hpo⟩
        simp only [List.flatten_cons, List.flatten_nil, List.append_nil]
        rw [← hfil, hr2]
        simp
    · have hcond : (fill_batch o reset initial rest).2 ≠ [] ∧ o.once = false :=
        ⟨hr2, honce⟩
      have hrne : rest ≠ [] := by
        intro h
        rw [h] at hr2
        simp [fill_batch] at hr2
      have hprog : (fill_batch o reset initial rest).2.length < rest.length :=
        fill_batch_progress o rest reset initial hcnt hfit hrne
      have hlen2 : (fill_batch o reset initial rest).2.length < f := by omega
      have hfit2 : ∀ s ∈ (fill_batch o reset initial rest).2,
          keep s o = true → initial + strlen s + 1 < o.maxsize :=
        fun s hs hk => hfit s (fill_batch_mem o rest reset initial s hs) hk
      have hsl : (fill_batch o reset initial rest).1 ≠ [] :=
        fill_batch_slice_ne o rest reset initial hcnt hfit hr2
      by_cases hpo : o.printonly = true
      · obtain ⟨ibne, ifl, ispin, ifuel, idrop, ipr⟩ :=
          ih (fill_batch o reset initial rest).2 k hlen2 hfit2
        simp only [run_loop, if_pos hcond, if_pos hpo, if_pos hprog]
        refine ⟨by simp, ?_, ispin, ifuel, ?_, fun _ => ⟨(ipr hpo).1, (ipr hpo).2⟩⟩
        · simp only [List.flatten_cons, ifl]
          exact hfil
        · rw [List.dropLast_cons_of_ne_nil ibne]
          intro s hs
          rcases List.mem_cons.1 hs with he | hm
          · rw [he]; exact hsl
          · exact idrop s hm
      · have heo : o.exitonerror = false := by
          rcases hpe with h | h
          · exact absurd h hpo
          · exact h
        obtain ⟨ibne, ifl, ispin, ifuel, idrop, _⟩ :=
          ih (fill_batch o reset initial rest).2 (k + 1) hlen2 hfit2
        simp only [run_loop, if_pos hcond, if_neg hpo, heo,
          deal_with_child_proceed, if_pos hprog]
        refine ⟨by simp, ?_, ispin, ifuel, ?_, fun h => absurd h hpo⟩
        · simp only [List.flatten_cons, ifl]
          exact hfil
        · rw [List.dropLast_cons_of_ne_nil ibne]
          intro s hs
          rcases List.mem_cons.1 hs with he | hm
          · rw [he]; exact hsl
          · exact idrop s hm

-- Helper lemmas about the start-marker scan.

theorem scan_go_no_match (ps : List Regex) (l : List String)
    (h : ∀ s ∈ l, any_match s ps = false) :
    ∀ (idx acc : Nat), scan_go ps l idx acc = acc := by
  induction l with
  | nil => intro idx acc; rfl
  | cons s r ih =>
    intro idx acc
    have hs : any_match s ps = false := h s (List.mem_cons_self s r)
    simp only [scan_go, hs]
    exact ih (fun u hu => h u (List.mem_cons_of_mem _ hu)) _ _

theorem scan_go_last_match (ps : List Regex) (l : List String) :
    ∀ (j : Nat) (hj : j < l.length),
      any_match (l.get ⟨j, hj⟩) ps = true →
      (∀ (j2 : Nat) (hj2 : j2 < l.length), j < j2 → any_match (l.get ⟨j2, hj2⟩) ps = false) →
      ∀ (idx acc : Nat), scan_go ps l idx acc = idx + j := by
  induction l with
  | nil => intro j hj; simp at hj
  | cons s r ih =>
    intro j hj hmatch hafter idx acc
    cases j with
    | zero =>
      have hs : any_match s ps = true := hmatch
      have hrest : ∀ u ∈ r, any_match u ps = false := by
        intro u hu
        obtain ⟨⟨j2, hj2⟩, he⟩ := List.mem_iff_get.1 hu
        have := hafter (j2 + 1) (by simpa using hj2) (Nat.succ_pos _)
        rw [← he]
        simpa using this
      simp only [scan_go, hs, if_pos]
      rw [scan_go_no_match ps r hrest]
      omega
    | succ j1 =>
      have hj1 : j1 < r.length := by simpa using hj
      have hm1 : any_match (r.get ⟨j1, hj1⟩) ps = true := by
        simpa using hmatch
      have ha1 : ∀ (j2 : Nat) (hj2 : j2 < r.length), j1 < j2 →
          any_match (r.get ⟨j2, hj2⟩) ps = false := by
        intro j2 hj2 hlt
        have := hafter (j2 + 1) (by simpa using hj2) (by omega)
        simpa using this
      simp only [scan_go]
      rw [ih j1 hj1 hm1 ha1]
      omega

-- Helper lemmas about the -D directory fold.

theorem recurse_step_mem_dir (F : List (List String)) (q p : List String) :
    p ∈ recurse_step F (q, true) ↔ (p ∈ F ∨ p = q) ∧ ¬(p = q.dropLast) := by
  simp only [recurse_step, List.mem_filter, decide_eq_true_eq]
  by_cases h : q ∈ F
  · rw [if_pos h]
    constructor
    · rintro ⟨hm, hne⟩
      exact ⟨Or.inl hm, hne⟩
    · rintro ⟨hm | he, hne⟩
      · exact ⟨hm, hne⟩
      · exact ⟨he ▸ h, hne⟩
  · rw [if_neg h]
    simp [List.mem_append]

theorem recurse_fold_mem :
    ∀ (es : List (List String × Bool)), parentFirst es →
      ∀ (p : List String),
        p ∈ es.foldl recurse_step [] ↔
          ((p, true) ∈ es ∧ ∀ q, (q, true) ∈ es → q.dropLast ≠ p) := by
  intro es
  induction es using List.reverseRecOn with
  | nil => intro _ p; simp
  | append_singleton es e ihe =>
    intro hpf p
    have hpf2 : parentFirst es :=
      List.Pairwise.sublist (List.sublist_append_left es [e]) hpf
    have hrel : ∀ a ∈ es, ¬(a.2 = true ∧ e.2 = true ∧ a.1.dropLast = e.1) := by
      intro a ha
      exact (List.pairwise_append.1 hpf).2.2 a ha e (List.mem_singleton.2 rfl)
    obtain ⟨q, b⟩ := e
    rw [List.foldl_append]
    simp only [List.foldl_cons, List.foldl_nil]
    cases b with
    | false =>
      rw [show recurse_step (es.foldl recurse_step []) (q, false)
            = es.foldl recurse_step [] from rfl]
      rw [ihe hpf2 p]
      constructor
      · rintro ⟨hm, hnc⟩
        refine ⟨List.mem_append_left _ hm, ?_⟩
        intro r hr
        rcases List.mem_append.1 hr with h1 | h2
        · exact hnc r h1
        · simp at h2
      · rintro ⟨hm, hnc⟩
        rcases List.mem_append.1 hm with h1 | h2
        · exact ⟨h1, fun r hr => hnc r (List.mem_append_left _ hr)⟩
        · simp at h2
    | true =>
      rw [recurse_step_mem_dir]
      rw [ihe hpf2 p]
      constructor
      · rintro ⟨hm | he, hne⟩
        · obtain ⟨hmes, hnochild⟩ := hm
          refine ⟨List.mem_append_left _ hmes, ?_⟩
          intro r hr
          rcases List.mem_append.1 hr with h1 | h2
          · exact hnochild r h1
          · have : r = q := by simpa using h2
            rw [this]
            exact fun hc => hne hc.symm
        · refine ⟨List.mem_append_right _ (by simp [he]), ?_⟩
          intro r hr
          rcases List.mem_append.1 hr with h1 | h2
          · have h3 : ¬(r.dropLast = q) := by simpa using hrel (r, true) h1
            rw [he]
            exact h3
          · have h4 : r = q := by simpa using h2
            rw [h4]
            exact fun hc => hne hc.symm
      · rintro ⟨hm, hnc⟩
        have hnedrop : ¬(p = q.dropLast) := by
          intro hc
          exact hnc q (List.mem_append_right _ (by simp)) hc.symm
        rcases List.mem_append.1 hm with h1 | h2
        · exact ⟨Or.inl ⟨h1, fun r hr => hnc r (List.mem_append_left _ hr)⟩, hnedrop⟩
        · have : p = q := by simpa using h2
          exact ⟨Or.inr this, hnedrop⟩

-- Helper lemma about option parsing.

theorem apply_flag_fold_p_verbose :
    ∀ (fl : List Flag) (opt : options), (opt.printonly = true → opt.verbose = true) →
      (fl.foldl apply_flag opt).printonly = true →
      (fl.foldl apply_flag opt).verbose = true := by
  intro fl
  induction fl with
  | nil => intro opt h; exact h
  | cons f r ih =>
    intro opt h
    refine ih (apply_flag opt f) ?_
    cases f <;> simp [apply_flag] <;> exact h

theorem get_options_fields (flags : List Flag) (env : Nat) :
    (get_options flags env).printonly = (flags.foldl apply_flag {}).printonly ∧
    (get_options flags env).verbose = (flags.foldl apply_flag {}).verbose := by
  cases hb : (flags.foldl apply_flag {}).printonly <;>
    constructor <;> simp [get_options, hb]

-- The claims.

/-- Claim C1 (corrected, counterexample): the code never compares the fixed
prefix's own byte size against the byte ceiling, so a produced batch can
reach it.  With maxsize 3 and a 4-byte command, the run still composes and
execs a batch (the fixed prefix with an empty slice) whose serialized size
is 5, not strictly below the ceiling. -/
theorem batch_bytes_can_reach_ceiling :
    run_commands ["aaaa"] [] oByte allZero
      = .trace ⟨[[]], [], .execFinal []⟩ ∧
    oByte.maxsize ≤ argvBytes (["aaaa"] ++ ([] : List String)) := by
  decide

/-- Claim C1 (amended): for every produced batch, the argument count (fixed
prefix plus variable slice, null terminator excluded) is at most maxargs;
and provided the fixed prefix's own serialized size is strictly below the
byte ceiling, the batch's full serialized size is strictly below it too
(rr.C:358-364 and 371-379). -/
theorem run_commands_batch_budget (fixed pool : List String) (o : options)
    (outs : Nat → WaitStatus) (t : RunTrace)
    (ht : run_commands fixed pool o outs = .trace t) :
    ∀ s ∈ t.batches,
      fixed.length + s.length ≤ o.maxargs ∧
      (argvBytes fixed < o.maxsize → argvBytes (fixed ++ s) < o.maxsize) := by
  intro s hs
  unfold run_commands at ht
  by_cases hge : fixed.length ≥ o.maxargs
  · rw [if_pos hge] at ht
    exact absurd ht (by simp)
  · rw [if_neg hge] at ht
    have ht2 : run_loop o (argvBytes fixed) fixed.length outs (pool.length + 1) pool 0 = t := by
      injection ht
    have hb := run_loop_budget o (argvBytes fixed) fixed.length outs
      (pool.length + 1) pool 0 s (by rw [ht2]; exact hs)
    refine ⟨hb.1 (by omega), fun hlt => ?_⟩
    rw [argvBytes_append]
    exact hb.2 hlt

/-- Claim C1 witness: a run whose fixed prefix fits, evaluated concretely. -/
theorem run_commands_batch_budget_witness :
    (["c"] : List String).length + (["a"] : List String).length ≤ oW2.maxargs ∧
    (argvBytes ["c"] < oW2.maxsize → argvBytes (["c"] ++ ["a"]) < oW2.maxsize) :=
  run_commands_batch_budget ["c"] ["a"] oW2 allZero _ rfl ["a"] (by decide)

/-- Claim C2 (corrected, counterexample): with -O (run once) the loop stops
after the first batch even though the pool is not exhausted (rr.C:387), so
the concatenation of the emitted variable slices misses pool elements. -/
theorem once_mode_drops_elements :
    run_commands ["c"] ["a", "b"] oOnce allZero
      = .trace ⟨[["a"]], [], .execFinal ["a"]⟩ ∧
    [["a"]].flatten ≠ List.filter (fun s => keep s oOnce) ["a", "b"] := by
  decide

/-- Claim C2 (amended): with run-once disabled, stop-on-error disabled, the
fixed prefix below the count ceiling, and every kept pool element fitting
the byte ceiling next to the fixed prefix, the concatenation of all emitted
batches' variable slices, in emission order, equals the kept (filtered)
elements of the randomized pool exactly once: nothing dropped, nothing
repeated (rr.C:343-407). -/
theorem run_commands_pool_coverage (fixed pool : List String) (o : options)
    (outs : Nat → WaitStatus)
    (honce : o.once = false) (herr : o.exitonerror = false)
    (hcnt : fixed.length < o.maxargs)
    (hfit : ∀ s ∈ pool, keep s o = true → argvBytes fixed + strlen s + 1 < o.maxsize) :
    ∃ t, run_commands fixed pool o outs = .trace t ∧
      t.batches.flatten = pool.filter (fun s => keep s o) := by
  obtain ⟨_, hfl, _, _, _, _⟩ :=
    run_loop_main o (argvBytes fixed) fixed.length outs hcnt honce (Or.inr herr)
      (pool.length + 1) pool 0 (by omega) hfit
  refine ⟨_, ?_, hfl⟩
  unfold run_commands
  rw [if_neg (by omega)]

/-- Claim C2 witness: coverage evaluated on a concrete two-element pool. -/
theorem run_commands_pool_coverage_witness :
    ∃ t, run_commands ["c"] ["a", "b"] oW2 allZero = .trace t ∧
      t.batches.flatten = List.filter (fun s => keep s oW2) ["a", "b"] :=
  run_commands_pool_coverage ["c"] ["a", "b"] oW2 allZero rfl rfl (by decide)
    (by decide)

/-- Claim C3 (confirmed): keep (rr.C:332-340) drops a candidate matching any
exclude pattern regardless of the only set, and otherwise keeps it exactly
when the only set is empty or some only pattern matches. -/
theorem keep_filter_precedence (s : String) (o : options) :
    (any_match s o.exclude = true → keep s o = false) ∧
    (any_match s o.exclude = false →
      (keep s o = true ↔ (o.only = [] ∨ any_match s o.only = true))) := by
  constructor
  · intro h
    simp [keep, h]
  · intro h
    rw [keep, if_neg (by simp [h])]
    simp [List.isEmpty_iff]

/-- Claim C3 witness: exclusion beats an only match; with no exclude match,
keep is governed by the only set. -/
theorem keep_filter_precedence_witness :
    keep "x.pdf" oPat = false ∧
    (keep "y.mp4" oPat = true ↔ (oPat.only = [] ∨ any_match "y.mp4" oPat.only = true)) :=
  ⟨(keep_filter_precedence "x.pdf" oPat).1 (by decide),
   (keep_filter_precedence "y.mp4" oPat).2 (by decide)⟩

/-- Claim C4 (confirmed): when the fixed prefix alone reaches or exceeds
maxargs, run_commands reports the configuration error (usage) before any
batch is attempted or process spawned (rr.C:358-364); equivalently every
run that produces batches had a fixed prefix strictly below maxargs. -/
theorem prefix_count_gate (fixed pool : List String) (o : options)
    (outs : Nat → WaitStatus) :
    (o.maxargs ≤ fixed.length → run_commands fixed pool o outs = .usageError) ∧
    (∀ t, run_commands fixed pool o outs = .trace t → fixed.length < o.maxargs) := by
  constructor
  · intro h
    unfold run_commands
    rw [if_pos (by omega)]
  · intro t ht
    by_contra hc
    push_neg at hc
    unfold run_commands at ht
    rw [if_pos (by omega)] at ht
    exact absurd ht (by simp)

/-- Claim C4 witness: a one-word prefix aborts under -n1, and a produced
trace implies the prefix was below the ceiling. -/
theorem prefix_count_gate_witness :
    run_commands ["cmd"] ["a"] oN1 allZero = .usageError ∧
    (["cmd"] : List String).length < ({} : options).maxargs :=
  ⟨(prefix_count_gate ["cmd"] ["a"] oN1 allZero).1 (by decide),
   (prefix_count_gate ["cmd"] [] {} allZero).2 _ rfl⟩

/-- Claim C5 (corrected, counterexample): the empty-pool guard of main
(rr.C:506-509) fails the claim in both directions.  Rotate mode is never
tested: with rotate requested and an empty pool no error is reported.  And
the guard runs before any regex filtering (keep is applied only inside the
batching loop): with -1 and an exclude pattern dropping the only argument,
the pool is empty after filtering yet the guard sees one element, reports
nothing, and the run execs the bare command with an empty slice. -/
theorem empty_pool_guard_gaps :
    (oRot.rotate = true ∧ justone_empty_check oRot 0 = false) ∧
    (oJustX.justone = true ∧
      List.filter (fun s => keep s oJustX) ["a"] = [] ∧
      justone_empty_check oJustX 1 = false ∧
      run_commands ["cmd"] ["a"] oJustX allZero
        = .trace ⟨[[]], [], .execFinal []⟩) := by
  decide

/-- Claim C5 (amended): main reports the configuration error and aborts
before any process is spawned exactly when single-pick (-1) is requested
and the variable pool is empty at the guard, that is, empty after
expansion, list-file collection and the start-marker scan but before
filtering (`n` is the pool size at rr.C:506, pre-filter); a pool emptied
by filtering alone, and rotate mode, are not detected. -/
theorem justone_empty_pool_aborts (o : options) (n : Nat) :
    justone_empty_check o n = true ↔ (o.justone = true ∧ n = 0) := by
  simp [justone_empty_check]

/-- Claim C5 witness: the single-pick guard fires on a pool that is empty
at the guard. -/
theorem justone_empty_pool_aborts_witness :
    justone_empty_check oJust 0 = true :=
  (justone_empty_pool_aborts oJust 0).2 ⟨rfl, rfl⟩

/-- Claim C6 (confirmed): when start patterns are configured and element i
is the last one matching, the scan of rr.C:499-502 advances the pool to
exactly position i: everything before it is discarded and the matching
element itself is retained as the new head; with several matches the last
one wins. -/
theorem start_marker_last_match (o : options) (pool : List String) (i : Nat)
    (hne : o.start ≠ []) (hi : i < pool.length)
    (hm : any_match (pool.get ⟨i, hi⟩) o.start = true)
    (hlast : ∀ (j : Nat) (hj : j < pool.length), i < j →
      any_match (pool.get ⟨j, hj⟩) o.start = false) :
    apply_start o pool = pool.drop i ∧
    (apply_start o pool).head? = some (pool.get ⟨i, hi⟩) := by
  have hscan : scan_start o.start pool = i := by
    unfold scan_start
    rw [scan_go_last_match o.start pool i hi hm hlast 0 0]
    omega
  have hemp : ¬(o.start.isEmpty = true) := by
    simp [List.isEmpty_iff]
    exact hne
  constructor
  · unfold apply_start
    rw [if_neg hemp, hscan]
  · unfold apply_start
    rw [if_neg hemp, hscan, List.head?_drop]
    simp [List.getElem?_eq_getElem hi]

/-- Claim C6 witness: start pattern matching "m" in a three-element pool. -/
theorem start_marker_last_match_witness :
    apply_start oStart ["a", "m", "b"] = (["a", "m", "b"] : List String).drop 1 ∧
    (apply_start oStart ["a", "m", "b"]).head?
      = some ((["a", "m", "b"] : List String).get ⟨1, by decide⟩) :=
  start_marker_last_match oStart ["a", "m", "b"] 1 (List.cons_ne_nil _ _)
    (by decide) (by decide) (by decide)

/-- Claim C7 (corrected, counterexample): on the spec scenario tree
root/(a/(1.txt), b/(c/(2.txt))) the -D expansion yields both root/a and
root/b/c, not only root/a as the scenario states. -/
theorem leafdirs_scenario_both_leaves :
    recurse esScenario true = [["root", "a"], ["root", "b", "c"]] ∧
    ["root", "b", "c"] ∈ recurse esScenario true ∧
    (["root", "b", "c"] : List String) ∉ [["root", "a"]] := by
  decide

/-- Claim C7 (amended): for every directory-iterator stream in which a
directory is yielded before its children, the -D expansion (rr.C:410-433)
yields exactly the directories seen that have no subdirectory among the
entries; on the scenario tree these are root/a and root/b/c. -/
theorem leafdirs_no_subdirectory (es : List (List String × Bool))
    (hpf : parentFirst es) (p : List String) :
    p ∈ recurse es true ↔
      ((p, true) ∈ es ∧ ∀ q, (q, true) ∈ es → q.dropLast ≠ p) := by
  unfold recurse
  rw [if_pos rfl]
  exact recurse_fold_mem es hpf p

/-- Claim C7 witness: the characterization applied to the scenario stream. -/
theorem leafdirs_no_subdirectory_witness :
    ["root", "b", "c"] ∈ recurse esScenario true ↔
      ((["root", "b", "c"], true) ∈ esScenario ∧
        ∀ q, (q, true) ∈ esScenario → q.dropLast ≠ ["root", "b", "c"]) :=
  leafdirs_no_subdirectory esScenario (by decide) ["root", "b", "c"]

/-- Claim C8 (confirmed): a nonzero child exit is always reported
(rr.C:314-320); under stop-on-error the run terminates with that same exit
code, otherwise the supervisor proceeds to the next batch (the loop resumes
at the advanced cursor; a failed batch is never re-attempted). -/
theorem failed_exit_policy (s : Nat) (e : Bool) (hs : s ≠ 0) :
    (deal_with_child (.exited s) e).1 = true ∧
    deal_with_child (.exited s) true = (true, .exitWith s) ∧
    deal_with_child (.exited s) false = (true, .proceed) := by
  refine ⟨?_, ?_, ?_⟩ <;> simp [deal_with_child, hs]

/-- Claim C8 witness: exit code 2 under both stop-on-error settings. -/
theorem failed_exit_policy_witness :
    (deal_with_child (.exited 2) true).1 = true ∧
    deal_with_child (.exited 2) true = (true, .exitWith 2) ∧
    deal_with_child (.exited 2) false = (true, .proceed) :=
  failed_exit_policy 2 true (by decide)

/-- Claim C9 (corrected, counterexample): every kept element of this pool
fits the byte ceiling next to the fixed prefix, yet with -O the loop stops
after one batch and the pool is not consumed, so the claim's "having
consumed the whole pool" fails as stated. -/
theorem once_mode_leaves_pool :
    run_commands ["e"] ["p", "q"] oOnce9 allZero
      = .trace ⟨[["p"]], [], .execFinal ["p"]⟩ ∧
    (∀ s ∈ ["p", "q"], keep s oOnce9 = true →
      argvBytes ["e"] + strlen s + 1 < oOnce9.maxsize) ∧
    [["p"]].flatten ≠ ["p", "q"] := by
  decide

/-- Claim C9 (amended): with run-once disabled, stop-on-error disabled, the
fixed prefix below the count ceiling, and every kept element fitting the
byte ceiling next to the fixed prefix, the batching loop makes progress:
it terminates after finitely many batches (no spinning), every non-final
batch carries at least one variable element, and the kept pool is consumed
exactly once (rr.C:366-406). -/
theorem batching_progress_termination (fixed pool : List String) (o : options)
    (outs : Nat → WaitStatus)
    (honce : o.once = false) (herr : o.exitonerror = false)
    (hcnt : fixed.length < o.maxargs)
    (hfit : ∀ s ∈ pool, keep s o = true → argvBytes fixed + strlen s + 1 < o.maxsize) :
    ∃ t, run_commands fixed pool o outs = .trace t ∧
      t.final ≠ .spin ∧ t.final ≠ .outOfFuel ∧
      (∀ s ∈ t.batches.dropLast, s ≠ []) ∧
      t.batches.flatten = pool.filter (fun s => keep s o) := by
  obtain ⟨_, hfl, hsp, hfu, hdrop, _⟩ :=
    run_loop_main o (argvBytes fixed) fixed.length outs hcnt honce (Or.inr herr)
      (pool.length + 1) pool 0 (by omega) hfit
  refine ⟨_, ?_, hsp, hfu, hdrop, hfl⟩
  unfold run_commands
  rw [if_neg (by omega)]

/-- Claim C9 witness: progress and coverage on a three-element pool that
needs several batches under -n2. -/
theorem batching_progress_termination_witness :
    ∃ t, run_commands ["r"] ["u", "v", "w"] oW9 allZero = .trace t ∧
      t.final ≠ .spin ∧ t.final ≠ .outOfFuel ∧
      (∀ s ∈ t.batches.dropLast, s ≠ []) ∧
      t.batches.flatten = List.filter (fun s => keep s oW9) ["u", "v", "w"] :=
  batching_progress_termination ["r"] ["u", "v", "w"] oW9 allZero rfl rfl
    (by decide) (by decide)

/-- Claim C10 (corrected, counterexample): -p together with -n0 is a
print-only run that aborts with the usage error (exit status 1) before
printing any batch, so a print-only run does not always exit successfully
after the last batch. -/
theorem printonly_n0_aborts :
    (get_options [Flag.p, Flag.n 0] 0).printonly = true ∧
    run_commands [] ["a"] (get_options [Flag.p, Flag.n 0] 0) allZero
      = .usageError := by
  decide

/-- Claim C10 (amended): in print-only mode the fixed prefix is empty and
every input token, the first included, is a variable parameter; -p forces
verbose so each batch is echoed; and provided the count ceiling is positive,
run-once is disabled, and every kept token fits the (unbounded) byte
ceiling, no process is ever forked and the run ends with exit status 0
after the last batch, having printed every kept token exactly once
(rr.C:450-457 and 380-407). -/
theorem printonly_dry_run (flags : List Flag) (env : Nat) (v : List String)
    (outs : Nat → WaitStatus) (o : options) (ho : o = get_options flags env)
    (hp : o.printonly = true) (hn : 0 < o.maxargs) (honce : o.once = false)
    (hfit : ∀ s ∈ v, keep s o = true → strlen s + 1 < o.maxsize) :
    split_args o v = some ([], v) ∧ o.verbose = true ∧
    ∃ t, run_commands [] v o outs = .trace t ∧ t.forks = [] ∧
      t.final = .exitZero ∧
      t.batches.flatten = v.filter (fun s => keep s o) := by
  refine ⟨?_, ?_, ?_⟩
  · unfold split_args
    rw [if_pos hp]
  · subst ho
    have hfields := get_options_fields flags env
    rw [hfields.1] at hp
    rw [hfields.2]
    exact apply_flag_fold_p_verbose flags {} (fun h => absurd h (by decide)) hp
  · obtain ⟨_, hfl, _, _, _, hpr⟩ :=
      run_loop_main o (argvBytes []) ([] : List String).length outs
        (by simpa using hn) honce (Or.inl hp) (v.length + 1) v 0 (by omega)
        (by simpa [argvBytes] using hfit)
    refine ⟨_, ?_, (hpr hp).1, (hpr hp).2, hfl⟩
    unfold run_commands
    rw [if_neg (by simp; omega)]

/-- Claim C10 witness: a concrete -p run over two tokens. -/
theorem printonly_dry_run_witness :
    split_args (get_options [Flag.p] 0) ["x", "y"]
      = some ([], ["x", "y"]) ∧
    (get_options [Flag.p] 0).verbose = true ∧
    ∃ t, run_commands [] ["x", "y"] (get_options [Flag.p] 0) allZero = .trace t ∧
      t.forks = [] ∧ t.final = .exitZero ∧
      t.batches.flatten
        = List.filter (fun s => keep s (get_options [Flag.p] 0)) ["x", "y"] :=
  printonly_dry_run [Flag.p] 0 ["x", "y"] allZero (get_options [Flag.p] 0) rfl
    (by decide) (by decide) (by decide) (by decide)

end RR
